import Mathlib

/-!
Verification of the matching, scoring and temporal-comparison engine of the
mss-metro-ai-api-service repository, as a shallow embedding in Lean 4.

Python strings are modelled as lists of characters; Python dict lookups that
may miss a key are modelled with Option; Python floats are modelled as
rationals.  Numeric rounding (round(x, n)) is modelled as rounding to the
nearest multiple of 10^(-n); on exact decimal ties our rounding rounds half
up while CPython rounds the underlying binary float to even, a difference
that none of the statements below depends on.
-/

namespace MetroAI

/-! Text utilities modelling Python str.lower, str.strip and the substring
containment test (the `in` operator on strings). -/

/-- Model of Python str.lower applied to a character list. -/
def lowerChars (l : List Char) : List Char :=
  l.map Char.toLower

/-- Model of Python str.strip: drop whitespace from both ends. -/
def trimChars (l : List Char) : List Char :=
  ((l.dropWhile Char.isWhitespace).reverse.dropWhile Char.isWhitespace).reverse

/-- Whether the first list occurs as a leading segment of the second. -/
def leadsWith : List Char → List Char → Bool
  | [], _ => true
  | _ :: _, [] => false
  | a :: as, b :: bs => a = b && leadsWith as bs

/-- Model of the Python substring test: needle occurs somewhere in hay. -/
def occursIn (needle : List Char) : List Char → Bool
  | [] => leadsWith needle []
  | b :: bs => leadsWith needle (b :: bs) || occursIn needle bs

/-! Enumerations of app/schemas/bim.py.  Modelled from the spec: the module
app/schemas/bim.py itself is not present under src/, only its importers; the
spec gives the member lists of ProgressStatus (section 3, DetectedElement),
AlertType and AlertSeverity (section 3, Alert). -/

/-- Modelled from the spec: status enum of a detected element. -/
inductive ProgressStatus where
  | NOT_STARTED
  | IN_PROGRESS
  | COMPLETED
deriving DecidableEq, Repr

/-- Modelled from the spec: alert type enum. -/
inductive AlertType where
  | MISSING_ELEMENT
  | DEVIATION
  | DELAY
  | QUALITY_ISSUE
  | SAFETY_CONCERN
deriving DecidableEq, Repr

/-- Modelled from the spec: alert severity enum. -/
inductive AlertSeverity where
  | LOW
  | MEDIUM
  | HIGH
  | CRITICAL
deriving DecidableEq, Repr

/-- Severity ordering LOW < MEDIUM < HIGH < CRITICAL, as a numeric rank. -/
def AlertSeverity.rank : AlertSeverity → ℕ
  | .LOW => 0
  | .MEDIUM => 1
  | .HIGH => 2
  | .CRITICAL => 3

/-! Rounding helpers modelling Python round(x, 2) and round(x, 3). -/

/-- Round a rational to 2 decimal places. -/
def round2 (q : ℚ) : ℚ :=
  (round (q * 100) : ℤ) / 100

/-- Round a rational to 3 decimal places. -/
def round3 (q : ℚ) : ℚ :=
  (round (q * 1000) : ℤ) / 1000

/-! Progress calculator, from
app/services/progress_calculator.py, ProgressCalculator.calculate_progress_metrics.
A detected element is read only through its status entry, which a dict may
lack, hence an Option field. -/

/-- A detected element as consumed by the progress calculator. -/
structure PElem where
  status : Option ProgressStatus
deriving DecidableEq, Repr

/-- Return value of calculate_progress_metrics: either the degenerate
one-key dict or the full metrics dict. -/
inductive ProgressResult where
  | bare (overall_progress : ℚ)
  | full (overall_progress : ℚ) (detected_count completed_count in_progress_count : ℕ)
deriving DecidableEq, Repr

/-- The overall_progress entry of either result shape. -/
def ProgressResult.overall : ProgressResult → ℚ
  | .bare p => p
  | .full p _ _ _ => p

/-- Count of detected elements whose status is COMPLETED. -/
def countCompleted (detected : List PElem) : ℕ :=
  detected.countP (fun e => e.status = some ProgressStatus.COMPLETED)

/-- Count of detected elements whose status is IN_PROGRESS. -/
def countInProgress (detected : List PElem) : ℕ :=
  detected.countP (fun e => e.status = some ProgressStatus.IN_PROGRESS)

/-- Model of ProgressCalculator.calculate_progress_metrics.  The second
argument models the deprecated all_elements parameter (only its emptiness
and length are consulted), the third the total_elements parameter. -/
def calculate_progress_metrics (detected : List PElem)
    (all_elements : Option (List PElem)) (total_elements : Option ℕ) :
    ProgressResult :=
  let total? : Option ℕ :=
    match total_elements with
    | none =>
      match all_elements with
      | none => none
      | some l => if l = [] then none else some l.length
    | some t => some t
  match total? with
  | none => .bare 0
  | some t =>
    if t = 0 then .bare 0
    else
      .full (round2 (((countCompleted detected : ℚ) * 1 +
               (countInProgress detected : ℚ) * (1/2)) / (t : ℚ) * 100))
        detected.length (countCompleted detected) (countInProgress detected)

/-! Spec-side formulation of the progress formula, written from the spec's
words (section 4.7): weight 1 for COMPLETED, 1/2 for IN_PROGRESS, zero for
anything else; total of zero yields zero. -/

/-- Weight of one detected element per the spec. -/
def specWeight (e : PElem) : ℚ :=
  match e.status with
  | some ProgressStatus.COMPLETED => 1
  | some ProgressStatus.IN_PROGRESS => 1/2
  | _ => 0

/-- The spec's overall progress: weighted sum over total, times 100,
rounded to two decimals; 0 when the total is 0. -/
def specOverallProgress (detected : List PElem) (total : ℕ) : ℚ :=
  if total = 0 then 0
  else round2 ((detected.map specWeight).sum / (total : ℚ) * 100)

theorem sum_specWeight (detected : List PElem) :
    (detected.map specWeight).sum =
      (countCompleted detected : ℚ) * 1 + (countInProgress detected : ℚ) * (1/2) := by
  induction detected with
  | nil => simp [countCompleted, countInProgress]
  | cons e rest ih =>
    rcases e with ⟨st⟩
    rcases st with _ | st
    · simp [countCompleted, List.countP_cons, countInProgress, specWeight] at ih ⊢
      rw [ih]
    · cases st <;>
        simp [countCompleted, List.countP_cons, countInProgress, specWeight] at ih ⊢ <;>
        rw [ih] <;> ring

/-- C1: for every detected-element list and every totalElementCount, the
progress calculation returns overall_progress 0 when the total is 0, and
otherwise the weighted formula (completed*1 + inProgress*0.5)/total*100
rounded to 2 decimals, where statuses other than COMPLETED and IN_PROGRESS
contribute zero weight. -/
theorem progress_matches_spec (detected : List PElem) (total : ℕ) :
    (calculate_progress_metrics detected none (some total)).overall =
      specOverallProgress detected total := by
  by_cases h : total = 0 <;>
    simp [calculate_progress_metrics, specOverallProgress, h,
      ProgressResult.overall, sum_specWeight]

theorem round_le_round' {x y : ℚ} (h : x ≤ y) : round x ≤ round y := by
  rw [round_eq, round_eq]
  exact Int.floor_le_floor (by linarith)

theorem round2_nonneg {q : ℚ} (h : 0 ≤ q) : 0 ≤ round2 q := by
  have h0 : round (0 : ℚ) ≤ round (q * 100) := round_le_round' (by nlinarith)
  rw [round_zero] at h0
  have : (0 : ℚ) ≤ (round (q * 100) : ℤ) := by exact_mod_cast h0
  unfold round2
  positivity

theorem round2_le_100 {q : ℚ} (h : q ≤ 100) : round2 q ≤ 100 := by
  have h1 : round (q * 100) ≤ round ((10000 : ℚ)) := round_le_round' (by nlinarith)
  have h2 : round ((10000 : ℚ)) = 10000 := by
    exact_mod_cast round_natCast (α := ℚ) 10000
  rw [h2] at h1
  have : ((round (q * 100) : ℤ) : ℚ) ≤ 10000 := by exact_mod_cast h1
  unfold round2
  linarith

/-- C5 counterexample: with two COMPLETED detections and a declared total of
one element, the computed overall_progress is 200, outside the claimed
range 0 to 100. -/
theorem progress_bounds_counterexample :
    (calculate_progress_metrics [⟨some ProgressStatus.COMPLETED⟩,
        ⟨some ProgressStatus.COMPLETED⟩] none (some 1)).overall = 200 ∧
      ¬ (calculate_progress_metrics [⟨some ProgressStatus.COMPLETED⟩,
        ⟨some ProgressStatus.COMPLETED⟩] none (some 1)).overall ≤ 100 := by
  have h : (calculate_progress_metrics [⟨some ProgressStatus.COMPLETED⟩,
      ⟨some ProgressStatus.COMPLETED⟩] none (some 1)).overall = 200 := by
    simp [calculate_progress_metrics, ProgressResult.overall, countCompleted,
      countInProgress, List.countP_cons, round2]
    norm_num [round_eq]
  refine ⟨h, ?_⟩
  rw [h]
  norm_num

/-- C5 amended: overall_progress equals 0 whenever the declared total is 0 or
the detected list is empty, and lies within 0 to 100 provided the weighted
detection counts do not exceed the declared total (the code does not clamp,
so a detected list whose COMPLETED plus IN_PROGRESS count exceeds the total
produces a value above 100). -/
theorem progress_bounds (detected : List PElem) (total : ℕ) :
    (countCompleted detected + countInProgress detected ≤ total →
      0 ≤ (calculate_progress_metrics detected none (some total)).overall ∧
        (calculate_progress_metrics detected none (some total)).overall ≤ 100) ∧
    (total = 0 → (calculate_progress_metrics detected none (some total)).overall = 0) ∧
    (detected = [] → (calculate_progress_metrics detected none (some total)).overall = 0) := by
  refine ⟨?_, ?_, ?_⟩
  · intro hle
    by_cases h0 : total = 0
    · simp [calculate_progress_metrics, h0, ProgressResult.overall]
    · have htpos : (0 : ℚ) < (total : ℚ) := by
        exact_mod_cast Nat.pos_of_ne_zero h0
      set c : ℚ := (countCompleted detected : ℚ) with hc
      set i : ℚ := (countInProgress detected : ℚ) with hi
      have hcnn : 0 ≤ c := by positivity
      have hinn : 0 ≤ i := by positivity
      have hsum : c + i ≤ (total : ℚ) := by
        rw [hc, hi]
        exact_mod_cast hle
      have hq0 : 0 ≤ (c * 1 + i * (1/2)) / (total : ℚ) * 100 := by positivity
      have hq100 : (c * 1 + i * (1/2)) / (total : ℚ) * 100 ≤ 100 := by
        rw [div_mul_eq_mul_div, div_le_iff₀ htpos]
        nlinarith
      simp only [calculate_progress_metrics, h0, ProgressResult.overall, if_false]
      exact ⟨round2_nonneg hq0, round2_le_100 hq100⟩
  · intro h0
    simp [calculate_progress_metrics, h0, ProgressResult.overall]
  · intro hnil
    by_cases h0 : total = 0
    · simp [calculate_progress_metrics, h0, ProgressResult.overall]
    · subst hnil
      simp [calculate_progress_metrics, h0, ProgressResult.overall, countCompleted,
        countInProgress, round2]

/-- Witness for C5 amended at a concrete input: one COMPLETED and one
IN_PROGRESS detection against a total of 4. -/
theorem progress_bounds_witness :
    0 ≤ (calculate_progress_metrics [⟨some ProgressStatus.COMPLETED⟩,
        ⟨some ProgressStatus.IN_PROGRESS⟩] none (some 4)).overall ∧
      (calculate_progress_metrics [⟨some ProgressStatus.COMPLETED⟩,
        ⟨some ProgressStatus.IN_PROGRESS⟩] none (some 4)).overall ≤ 100 :=
  (progress_bounds [⟨some ProgressStatus.COMPLETED⟩,
    ⟨some ProgressStatus.IN_PROGRESS⟩] 4).1 (by decide)

/-! Result merger, from app/services/bim_analysis.py,
BIMAnalysisService._merge_detection_results.  The Python dict keyed by
element_id is modelled as an association list in insertion order: writing an
existing key replaces the value in place, a new key is appended. -/

/-- A detection record as consumed by the merger (a DetectedElement dump;
only the fields the claims mention are modelled). -/
structure DRec where
  element_id : Option (List Char)
  element_type : List Char
  confidence : ℚ
  status : ProgressStatus
deriving DecidableEq, Repr

/-- Element ids of a detection list. -/
def idsOf (l : List DRec) : List (Option (List Char)) :=
  l.map (fun r => r.element_id)

/-- Dict write merged[r.element_id] = r: replace in place or append. -/
def upsertVec (m : List (Option (List Char) × DRec)) (r : DRec) :
    List (Option (List Char) × DRec) :=
  if (m.find? (fun p => p.1 = r.element_id)).isSome then
    m.map (fun p => if p.1 = r.element_id then (p.1, r) else p)
  else m ++ [(r.element_id, r)]

/-- Conditional dict write used for keyword results: only when the key is
absent. -/
def insertKw (m : List (Option (List Char) × DRec)) (r : DRec) :
    List (Option (List Char) × DRec) :=
  if (m.find? (fun p => p.1 = r.element_id)).isSome then m
  else m ++ [(r.element_id, r)]

/-- Model of _merge_detection_results: vector results written first,
keyword results only into absent keys, values listed in insertion order. -/
def merge_detection_results (vector_results keyword_results : List DRec) :
    List DRec :=
  ((keyword_results.foldl insertKw (vector_results.foldl upsertVec []))).map Prod.snd

theorem foldl_upsertVec_pred (P : Option (List Char) × DRec → Prop)
    (v : List DRec) (hv : ∀ r ∈ v, P (r.element_id, r)) :
    ∀ m, (∀ p ∈ m, P p) → ∀ p ∈ v.foldl upsertVec m, P p := by
  induction v with
  | nil => intro m hm p hp; exact hm p hp
  | cons r rest ih =>
    intro m hm p hp
    refine ih (fun r' hr' => hv r' (List.mem_cons_of_mem _ hr')) (upsertVec m r) ?_ p hp
    intro q hq
    unfold upsertVec at hq
    by_cases hf : (m.find? (fun p => p.1 = r.element_id)).isSome
    · simp only [hf, if_true] at hq
      rcases List.mem_map.mp hq with ⟨q0, hq0, hq0e⟩
      by_cases hk : q0.1 = r.element_id
      · simp only [hk, if_true] at hq0e
        subst hq0e
        exact hv r (List.mem_cons_self r rest)
      · simp only [hk, if_false] at hq0e
        subst hq0e
        exact hm q0 hq0
    · simp only [hf, if_false] at hq
      rcases List.mem_append.mp hq with hq | hq
      · exact hm q hq
      · rcases List.mem_singleton.mp hq with rfl
        exact hv r (List.mem_cons_self r rest)

theorem foldl_upsertVec_key (v : List DRec) :
    ∀ m id, (id ∈ idsOf v ∨ ∃ p ∈ m, p.1 = id) →
      ∃ p ∈ v.foldl upsertVec m, p.1 = id := by
  induction v with
  | nil =>
    intro m id h
    rcases h with h | h
    · simp [idsOf] at h
    · exact h
  | cons r rest ih =>
    intro m id h
    apply ih (upsertVec m r)
    rcases h with h | ⟨p, hp, hpe⟩
    · rcases List.mem_map.mp h with ⟨r0, hr0, hr0e⟩
      rcases List.mem_cons.mp hr0 with rfl | hr0
      · right
        unfold upsertVec
        by_cases hf : (m.find? (fun p => p.1 = r0.element_id)).isSome
        · rcases Option.isSome_iff_exists.mp hf with ⟨q, hq⟩
          have hqm := List.mem_of_find?_eq_some hq
          have hqk : q.1 = r0.element_id := by
            have := List.find?_some hq
            exact of_decide_eq_true this
          refine ⟨(q.1, r0), ?_, by rw [hqk]; exact hr0e⟩
          simp only [hf, if_true]
          refine List.mem_map.mpr ⟨q, hqm, ?_⟩
          simp [hqk]
        · refine ⟨(r0.element_id, r0), ?_, hr0e⟩
          simp only [upsertVec, hf, if_false]
          exact List.mem_append.mpr (Or.inr (List.mem_singleton.mpr rfl))
      · left
        exact List.mem_map.mpr ⟨r0, hr0, hr0e⟩
    · right
      unfold upsertVec
      by_cases hf : (m.find? (fun p => p.1 = r.element_id)).isSome
      · simp only [hf, if_true]
        by_cases hk : p.1 = r.element_id
        · exact ⟨(p.1, r), List.mem_map.mpr ⟨p, hp, by simp [hk]⟩, hpe⟩
        · exact ⟨p, List.mem_map.mpr ⟨p, hp, by simp [hk]⟩, hpe⟩
      · simp only [hf, if_false]
        exact ⟨p, List.mem_append.mpr (Or.inl hp), hpe⟩

theorem foldl_insertKw_keep (k : List DRec) :
    ∀ m p, p ∈ m → p ∈ k.foldl insertKw m := by
  induction k with
  | nil => intro m p hp; exact hp
  | cons r rest ih =>
    intro m p hp
    apply ih
    unfold insertKw
    by_cases hf : (m.find? (fun p => p.1 = r.element_id)).isSome
    · simp only [hf, if_true]; exact hp
    · simp only [hf, if_false]; exact List.mem_append.mpr (Or.inl hp)

theorem foldl_insertKw_src (k : List DRec) :
    ∀ m p, p ∈ k.foldl insertKw m →
      p ∈ m ∨ (p.2 ∈ k ∧ p.1 = p.2.element_id ∧ ∀ q ∈ m, q.1 ≠ p.1) := by
  induction k with
  | nil => intro m p hp; exact Or.inl hp
  | cons r rest ih =>
    intro m p hp
    have hstep := ih (insertKw m r) p hp
    by_cases hf : (m.find? (fun p => p.1 = r.element_id)).isSome
    · rcases hstep with hstep | ⟨h1, h2, h3⟩
      · simp only [insertKw, hf, if_true] at hstep
        exact Or.inl hstep
      · simp only [insertKw, hf, if_true] at h3
        exact Or.inr ⟨List.mem_cons_of_mem _ h1, h2, h3⟩
    · have hnone : m.find? (fun p => p.1 = r.element_id) = none :=
        Option.not_isSome_iff_eq_none.mp hf
      have habs : ∀ q ∈ m, q.1 ≠ r.element_id := by
        intro q hq
        have := List.find?_eq_none.mp hnone q hq
        simpa using this
      rcases hstep with hstep | ⟨h1, h2, h3⟩
      · simp only [insertKw, hf, if_false] at hstep
        rcases List.mem_append.mp hstep with hstep | hstep
        · exact Or.inl hstep
        · rcases List.mem_singleton.mp hstep with rfl
          exact Or.inr ⟨List.mem_cons_self r rest, rfl, habs⟩
      · refine Or.inr ⟨List.mem_cons_of_mem _ h1, h2, ?_⟩
        intro q hq
        simp only [insertKw, hf, if_false] at h3
        exact h3 q (List.mem_append.mpr (Or.inl hq))

/-- C2: in the merged detection list, every record either comes from the
vector results, or comes from the keyword results and has an element_id
absent from the vector id set; and every element_id present in the vector
results is represented in the merged output by a vector-sourced record (so
its status and confidence are the vector ones).  The merger is a pure
function of its two inputs, so repeated runs on identical inputs are
identical by construction. -/
theorem merge_vector_priority (v k : List DRec) :
    (∀ r ∈ merge_detection_results v k,
        r ∈ v ∨ (r ∈ k ∧ r.element_id ∉ idsOf v)) ∧
    (∀ id, id ∈ idsOf v →
        ∃ r, r ∈ merge_detection_results v k ∧ r ∈ v ∧ r.element_id = id) := by
  have hvinv : ∀ p ∈ v.foldl upsertVec [],
      p.2 ∈ v ∧ p.2.element_id = p.1 := by
    refine foldl_upsertVec_pred _ v (fun r hr => ⟨hr, rfl⟩) [] ?_
    intro p hp
    exact absurd hp (List.not_mem_nil p)
  constructor
  · intro r hr
    rcases List.mem_map.mp hr with ⟨p, hp, hpe⟩
    rcases foldl_insertKw_src k _ p hp with hp0 | ⟨h1, h2, h3⟩
    · left
      rw [← hpe]
      exact (hvinv p hp0).1
    · right
      refine ⟨hpe ▸ h1, ?_⟩
      intro hid
      rcases foldl_upsertVec_key v [] r.element_id (Or.inl hid) with ⟨q, hq, hqe⟩
      exact h3 q hq (by rw [hqe, ← hpe, ← h2])
  · intro id hid
    rcases foldl_upsertVec_key v [] id (Or.inl hid) with ⟨q, hq, hqe⟩
    have hkeep := foldl_insertKw_keep k _ q hq
    exact ⟨q.2, List.mem_map.mpr ⟨q, hkeep, rfl⟩, (hvinv q hq).1,
      by rw [(hvinv q hq).2, hqe]⟩

/-- Witness for C2 at a concrete input: the element id that appears in both
the vector and the keyword results keeps its vector-sourced record. -/
theorem merge_vector_priority_witness :
    ∃ r, r ∈ merge_detection_results
        [⟨some ['a'], ['w'], 9/10, ProgressStatus.COMPLETED⟩]
        [⟨some ['a'], ['w'], 17/20, ProgressStatus.IN_PROGRESS⟩] ∧
      r ∈ [⟨some ['a'], ['w'], 9/10, ProgressStatus.COMPLETED⟩] ∧
      r.element_id = some ['a'] :=
  (merge_vector_priority
    [⟨some ['a'], ['w'], 9/10, ProgressStatus.COMPLETED⟩]
    [⟨some ['a'], ['w'], 17/20, ProgressStatus.IN_PROGRESS⟩]).2
    (some ['a']) (by decide)

/-! Alert classification for free-text alert messages, from
app/routes/bim.py, _save_alerts: an elif chain over type keywords (the
SAFETY_CONCERN arm also raises the severity to HIGH), then a separate if
chain over severity keywords that overwrites the severity. -/

/-- Keywords mapped to MISSING_ELEMENT. -/
def missingKws : List (List Char) :=
  ["missing".toList, "faltando".toList, "ausente".toList, "não detectado".toList]

/-- Keywords mapped to DELAY. -/
def delayKws : List (List Char) :=
  ["delay".toList, "atraso".toList, "atrasado".toList]

/-- Keywords mapped to QUALITY_ISSUE. -/
def qualityKws : List (List Char) :=
  ["quality".toList, "qualidade".toList, "defeito".toList]

/-- Keywords mapped to SAFETY_CONCERN. -/
def safetyKws : List (List Char) :=
  ["safety".toList, "segurança".toList, "risco".toList]

/-- Keywords mapped to severity CRITICAL. -/
def criticalKws : List (List Char) :=
  ["critical".toList, "crítico".toList, "urgente".toList, "grave".toList]

/-- Keywords mapped to severity HIGH. -/
def highSevKws : List (List Char) :=
  ["high".toList, "alto".toList, "importante".toList]

/-- Keywords mapped to severity LOW. -/
def lowSevKws : List (List Char) :=
  ["low".toList, "baixo".toList, "menor".toList]

/-- Whether any keyword of the table occurs in the text (Python
any(word in text for word in words)). -/
def anyKeyword (words : List (List Char)) (text : List Char) : Bool :=
  words.any (fun w => occursIn w text)

/-- Model of the classification part of _save_alerts: returns the stored
(alert_type, severity) pair for one free-text alert message. -/
def classify_alert (alert_text : List Char) : AlertType × AlertSeverity :=
  let text_lower := lowerChars alert_text
  let typed : AlertType × AlertSeverity :=
    if anyKeyword missingKws text_lower then (.MISSING_ELEMENT, .MEDIUM)
    else if anyKeyword delayKws text_lower then (.DELAY, .MEDIUM)
    else if anyKeyword qualityKws text_lower then (.QUALITY_ISSUE, .MEDIUM)
    else if anyKeyword safetyKws text_lower then (.SAFETY_CONCERN, .HIGH)
    else (.DEVIATION, .MEDIUM)
  let severity : AlertSeverity :=
    if anyKeyword criticalKws text_lower then .CRITICAL
    else if anyKeyword highSevKws text_lower then .HIGH
    else if anyKeyword lowSevKws text_lower then .LOW
    else typed.2
  (typed.1, severity)

/-- C9 counterexample: the message "safety baixo" is classified as
SAFETY_CONCERN, yet its stored severity is LOW, strictly below HIGH. -/
theorem classify_alert_counterexample :
    classify_alert "safety baixo".toList =
        (AlertType.SAFETY_CONCERN, AlertSeverity.LOW) ∧
      AlertSeverity.LOW.rank < AlertSeverity.HIGH.rank := by
  constructor
  · decide
  · decide

/-- C9 amended: with no keyword match the stored classification is
(DEVIATION, MEDIUM); a SAFETY_CONCERN message is never stored with severity
MEDIUM, and its severity is at least HIGH unless the message also matches a
low-severity keyword while matching no critical or high severity keyword,
in which case the severity-keyword scan overwrites the HIGH with LOW. -/
theorem classify_alert_spec (alert_text : List Char) :
    ((anyKeyword missingKws (lowerChars alert_text) = false ∧
      anyKeyword delayKws (lowerChars alert_text) = false ∧
      anyKeyword qualityKws (lowerChars alert_text) = false ∧
      anyKeyword safetyKws (lowerChars alert_text) = false ∧
      anyKeyword criticalKws (lowerChars alert_text) = false ∧
      anyKeyword highSevKws (lowerChars alert_text) = false ∧
      anyKeyword lowSevKws (lowerChars alert_text) = false) →
      classify_alert alert_text = (AlertType.DEVIATION, AlertSeverity.MEDIUM)) ∧
    ((classify_alert alert_text).1 = AlertType.SAFETY_CONCERN →
      (classify_alert alert_text).2 ≠ AlertSeverity.MEDIUM ∧
      ((anyKeyword lowSevKws (lowerChars alert_text) = false ∨
        anyKeyword criticalKws (lowerChars alert_text) = true ∨
        anyKeyword highSevKws (lowerChars alert_text) = true) →
        AlertSeverity.HIGH.rank ≤ (classify_alert alert_text).2.rank)) := by
  constructor
  · rintro ⟨h1, h2, h3, h4, h5, h6, h7⟩
    simp [classify_alert, h1, h2, h3, h4, h5, h6, h7]
  · intro hsc
    by_cases hm : anyKeyword missingKws (lowerChars alert_text) = true
    · simp [classify_alert, hm] at hsc
    · by_cases hd : anyKeyword delayKws (lowerChars alert_text) = true
      · simp [classify_alert, hm, hd] at hsc
      · by_cases hq : anyKeyword qualityKws (lowerChars alert_text) = true
        · simp [classify_alert, hm, hd, hq] at hsc
        · by_cases hs : anyKeyword safetyKws (lowerChars alert_text) = true
          · by_cases hc : anyKeyword criticalKws (lowerChars alert_text) = true
            · constructor
              · simp [classify_alert, hm, hd, hq, hs, hc]
              · intro _
                simp [classify_alert, hm, hd, hq, hs, hc, AlertSeverity.rank]
            · by_cases hh : anyKeyword highSevKws (lowerChars alert_text) = true
              · constructor
                · simp [classify_alert, hm, hd, hq, hs, hc, hh]
                · intro _
                  simp [classify_alert, hm, hd, hq, hs, hc, hh, AlertSeverity.rank]
              · by_cases hl : anyKeyword lowSevKws (lowerChars alert_text) = true
                · constructor
                  · simp [classify_alert, hm, hd, hq, hs, hc, hh, hl]
                  · intro habs
                    rcases habs with habs | habs | habs
                    · rw [habs] at hl; exact absurd hl (by decide)
                    · exact absurd habs (by simpa using hc)
                    · exact absurd habs (by simpa using hh)
                · constructor
                  · simp [classify_alert, hm, hd, hq, hs, hc, hh, hl]
                  · intro _
                    simp [classify_alert, hm, hd, hq, hs, hc, hh, hl,
                      AlertSeverity.rank]
          · simp [classify_alert, hm, hd, hq, hs] at hsc

/-- Witness for C9 amended at a concrete input: the message "tudo ok"
matches no keyword and is stored as (DEVIATION, MEDIUM). -/
theorem classify_alert_spec_witness :
    classify_alert "tudo ok".toList =
      (AlertType.DEVIATION, AlertSeverity.MEDIUM) :=
  (classify_alert_spec "tudo ok".toList).1 (by decide)

/-! Vector retrieval adapter, from app/services/rag_search_service.py,
RAGSearchService.find_similar_elements_vector.  The external OpenSearch call
is modelled as an Except value handed to the function: the try/except block
of the source maps any failure to an empty result list.  A hit's meta score
may be absent, hence an Option field. -/

/-- A raw OpenSearch KNN hit. -/
structure VHit where
  score : Option ℚ
  element_id : List Char
  element_type : List Char
  element_name : Option (List Char)
deriving DecidableEq, Repr

/-- A detected element produced by the vector path. -/
structure VDetected where
  element_id : List Char
  element_type : List Char
  confidence : ℚ
  status : ProgressStatus
  description : List Char
deriving DecidableEq, Repr

/-- Maximum of a rational list, as Python max on a nonempty list. -/
def listMax : List ℚ → Option ℚ
  | [] => none
  | a :: as =>
    match listMax as with
    | none => some a
    | some m => some (max a m)

/-- Minimum of a rational list, as Python min on a nonempty list. -/
def listMin : List ℚ → Option ℚ
  | [] => none
  | a :: as =>
    match listMin as with
    | none => some a
    | some m => some (min a m)

/-- The scores present among the hits (hits without a score are skipped by
the comprehension building the normalization statistics). -/
def vScores (hits : List VHit) : List ℚ :=
  hits.filterMap (fun h => h.score)

/-- The max_score statistic: max of the scores, or 1 when none exist. -/
def vMax (hits : List VHit) : ℚ :=
  match listMax (vScores hits) with
  | some m => m
  | none => 1

/-- The min_score statistic: min of the scores, or 0 when none exist. -/
def vMin (hits : List VHit) : ℚ :=
  match listMin (vScores hits) with
  | some m => m
  | none => 0

/-- The score_range statistic: max minus min, or 1 when no scores exist. -/
def vRange (hits : List VHit) : ℚ :=
  if vScores hits = [] then 1 else vMax hits - vMin hits

/-- Raw score of one hit, defaulting to 0.5 when the meta score is absent. -/
def vRaw (h : VHit) : ℚ :=
  match h.score with
  | some s => s
  | none => 1/2

/-- Confidence of one hit: min-max normalization when the spread exceeds
0.01, otherwise the raw score capped at 1 (or 0.5 when negative), then a
final clamp into the unit interval. -/
def vConf (hits : List VHit) (h : VHit) : ℚ :=
  max 0 (min 1
    (if 1/100 < vRange hits then (vRaw h - vMin hits) / vRange hits
     else if 0 ≤ vRaw h then min (vRaw h) 1 else 1/2))

/-- Status thresholds of the vector path. -/
def vStatus (confidence : ℚ) : ProgressStatus :=
  if 7/10 < confidence then .COMPLETED
  else if 2/5 < confidence then .IN_PROGRESS
  else .NOT_STARTED

/-- The target_ids filter: a falsy (absent or empty) filter keeps every
hit, otherwise only hits whose element_id belongs to it. -/
def keepHit (target_ids : Option (List (List Char))) (h : VHit) : Bool :=
  match target_ids with
  | some ts => if ts = [] then true else decide (h.element_id ∈ ts)
  | none => true

/-- Description built for one hit: name (falling back to "Sem nome")
followed by the element type in parentheses. -/
def vDescription (h : VHit) : List Char :=
  (match h.element_name with
   | some n => if n = [] then "Sem nome".toList else n
   | none => "Sem nome".toList) ++ " (".toList ++ h.element_type ++ ")".toList

/-- The per-hit loop of find_similar_elements_vector on an already
successful search result. -/
def processHits (hits : List VHit) (target_ids : Option (List (List Char))) :
    List VDetected :=
  hits.filterMap (fun h =>
    if keepHit target_ids h then
      some ⟨h.element_id, h.element_type, round3 (vConf hits h),
        vStatus (vConf hits h), vDescription h⟩
    else none)

/-- Model of RAGSearchService.find_similar_elements_vector: the outcome of
the external search call is an Except; any failure yields the empty list. -/
def find_similar_elements_vector
    (search_result : Except (List Char) (List VHit))
    (target_ids : Option (List (List Char))) : List VDetected :=
  match search_result with
  | .error _ => []
  | .ok hits => processHits hits target_ids

/-- C8: whatever the failure reason carried by the exception and whatever
the target filter, the retrieval operation returns an empty list instead of
propagating the exception; the surrounding pipeline then merges an empty
vector list with the keyword results. -/
theorem vector_search_error_empty (msg : List Char)
    (target_ids : Option (List (List Char))) :
    find_similar_elements_vector (Except.error msg) target_ids = [] :=
  rfl

theorem listMax_spec (l : List ℚ) :
    ∀ m, listMax l = some m → ∀ a ∈ l, a ≤ m := by
  induction l with
  | nil => intro m hm; simp [listMax] at hm
  | cons b bs ih =>
    intro m hm a ha
    rcases List.mem_cons.mp ha with rfl | ha
    · cases hbs : listMax bs with
      | none =>
        simp [listMax, hbs] at hm
        exact le_of_eq hm
      | some mb =>
        simp [listMax, hbs] at hm
        rw [← hm]
        exact le_max_left _ _
    · cases hbs : listMax bs with
      | none =>
        cases bs with
        | nil => simp at ha
        | cons c cs =>
          rw [listMax] at hbs
          cases h : listMax cs <;> simp [h] at hbs
      | some mb =>
        simp [listMax, hbs] at hm
        calc a ≤ mb := ih mb hbs a ha
          _ ≤ max b mb := le_max_right _ _
          _ = m := hm

theorem listMin_spec (l : List ℚ) :
    ∀ m, listMin l = some m → ∀ a ∈ l, m ≤ a := by
  induction l with
  | nil => intro m hm; simp [listMin] at hm
  | cons b bs ih =>
    intro m hm a ha
    rcases List.mem_cons.mp ha with rfl | ha
    · cases hbs : listMin bs with
      | none =>
        simp [listMin, hbs] at hm
        exact le_of_eq hm.symm
      | some mb =>
        simp [listMin, hbs] at hm
        rw [← hm]
        exact min_le_left _ _
    · cases hbs : listMin bs with
      | none =>
        cases bs with
        | nil => simp at ha
        | cons c cs =>
          rw [listMin] at hbs
          cases h : listMin cs <;> simp [h] at hbs
      | some mb =>
        simp [listMin, hbs] at hm
        calc m ≤ mb := by rw [← hm]; exact min_le_right _ _
          _ ≤ a := ih mb hbs a ha

theorem listMax_isSome {l : List ℚ} (h : l ≠ []) : ∃ m, listMax l = some m := by
  cases l with
  | nil => exact absurd rfl h
  | cons a as =>
    rw [listMax]
    cases has : listMax as with
    | none => exact ⟨a, rfl⟩
    | some m => exact ⟨max a m, rfl⟩

theorem listMin_isSome {l : List ℚ} (h : l ≠ []) : ∃ m, listMin l = some m := by
  cases l with
  | nil => exact absurd rfl h
  | cons a as =>
    rw [listMin]
    cases has : listMin as with
    | none => exact ⟨a, rfl⟩
    | some m => exact ⟨min a m, rfl⟩

/-- First Scenario-B hit, raw score 0.91. -/
def hitB1 : VHit := ⟨some (91/100), "a".toList, "w".toList, some "n".toList⟩

/-- Second Scenario-B hit, raw score 0.40. -/
def hitB2 : VHit := ⟨some (2/5), "b".toList, "w".toList, some "n".toList⟩

/-- Third Scenario-B hit, raw score 0.12. -/
def hitB3 : VHit := ⟨some (12/100), "c".toList, "w".toList, some "n".toList⟩

/-- The Scenario-B retrieval result set. -/
def hitsB : List VHit := [hitB1, hitB2, hitB3]

theorem hitsB_scores : vScores [hitB1, hitB2, hitB3] = [91/100, 2/5, 12/100] :=
  rfl

theorem hitsB_min : vMin [hitB1, hitB2, hitB3] = 12/100 := by
  norm_num [vMin, hitsB_scores, listMin, min_def]

theorem hitsB_range : vRange [hitB1, hitB2, hitB3] = 79/100 := by
  have hmx : vMax [hitB1, hitB2, hitB3] = 91/100 := by
    norm_num [vMax, hitsB_scores, listMax, max_def]
  have hne : vScores [hitB1, hitB2, hitB3] ≠ [] := by
    rw [hitsB_scores]
    simp
  unfold vRange
  rw [if_neg hne, hmx, hitsB_min]
  norm_num

theorem hitsB_conf1 : vConf [hitB1, hitB2, hitB3] hitB1 = 1 := by
  have hraw : vRaw hitB1 = 91/100 := rfl
  unfold vConf
  rw [hraw, hitsB_range, hitsB_min, if_pos (by norm_num)]
  norm_num [max_def, min_def]

theorem hitsB_conf2 : vConf [hitB1, hitB2, hitB3] hitB2 = 28/79 := by
  have hraw : vRaw hitB2 = 2/5 := rfl
  unfold vConf
  rw [hraw, hitsB_range, hitsB_min, if_pos (by norm_num)]
  norm_num [max_def, min_def]

theorem hitsB_conf3 : vConf [hitB1, hitB2, hitB3] hitB3 = 0 := by
  have hraw : vRaw hitB3 = 12/100 := rfl
  unfold vConf
  rw [hraw, hitsB_range, hitsB_min, if_pos (by norm_num)]
  norm_num [max_def, min_def]

/-- C4 counterexample: for raw scores [0.91, 0.40, 0.12] the min-max
normalized confidences are [1, 28/79, 0] with 28/79 about 0.354, not about
0.45 as claimed; the middle confidence is below the 0.4 threshold, so its
status is NOT_STARTED rather than IN_PROGRESS. -/
theorem vector_normalization_counterexample :
    (processHits hitsB none).map (fun d => d.confidence) = [1, 177/500, 0] ∧
    (processHits hitsB none).map (fun d => d.status) =
      [ProgressStatus.COMPLETED, ProgressStatus.NOT_STARTED,
        ProgressStatus.NOT_STARTED] ∧
    vConf hitsB hitB2 = 28/79 ∧ (28 : ℚ)/79 < 2/5 := by
  have hr1 : round3 (1 : ℚ) = 1 := by norm_num [round3, round_eq]
  have hr2 : round3 ((28 : ℚ)/79) = 177/500 := by norm_num [round3, round_eq]
  have hr3 : round3 (0 : ℚ) = 0 := by norm_num [round3, round_eq]
  have hs1 : vStatus (1 : ℚ) = ProgressStatus.COMPLETED := by norm_num [vStatus]
  have hs2 : vStatus ((28 : ℚ)/79) = ProgressStatus.NOT_STARTED := by
    norm_num [vStatus]
  have hs3 : vStatus (0 : ℚ) = ProgressStatus.NOT_STARTED := by norm_num [vStatus]
  refine ⟨?_, ?_, hitsB_conf2, by norm_num⟩
  · simp [processHits, keepHit, hitsB, hitsB_conf1, hitsB_conf2, hitsB_conf3,
      hr1, hr2, hr3]
  · simp [processHits, keepHit, hitsB, hitsB_conf1, hitsB_conf2, hitsB_conf3,
      hs1, hs2, hs3]

/-- C4 amended: every produced detection corresponds to a kept hit, its
stored confidence is the clamped confidence rounded to 3 decimals with the
clamped value in the unit interval, and its status follows the greater than
0.7 and greater than 0.4 thresholds; when the score spread exceeds 0.01,
the confidence of a scored hit is exactly the min-max normalization of its
raw score; otherwise a nonnegative raw score is capped at 1 and a negative
raw score falls back to 0.5 (for the Scenario-B scores [0.91, 0.40, 0.12]
this yields confidences [1, 28/79, 0], the middle one about 0.354 with
status NOT_STARTED). -/
theorem vector_normalization_spec (hits : List VHit)
    (target_ids : Option (List (List Char))) :
    (∀ d ∈ processHits hits target_ids, ∃ h, h ∈ hits ∧ keepHit target_ids h = true ∧
      d.confidence = round3 (vConf hits h) ∧ d.status = vStatus (vConf hits h) ∧
      0 ≤ vConf hits h ∧ vConf hits h ≤ 1) ∧
    ((1/100 : ℚ) < vRange hits → ∀ h, h ∈ hits → ∀ s, h.score = some s →
      vConf hits h = (s - vMin hits) / vRange hits) ∧
    (vRange hits ≤ 1/100 → ∀ h : VHit,
      (0 ≤ vRaw h → vConf hits h = min (vRaw h) 1) ∧
      (vRaw h < 0 → vConf hits h = 1/2)) := by
  refine ⟨?_, ?_, ?_⟩
  · intro d hd
    rcases List.mem_filterMap.mp hd with ⟨h, hh, hfh⟩
    by_cases hk : keepHit target_ids h = true
    · rw [if_pos hk] at hfh
      refine ⟨h, hh, hk, ?_⟩
      rcases Option.some_injective _ hfh with rfl
      refine ⟨rfl, rfl, ?_, ?_⟩
      · exact le_max_left _ _
      · exact max_le (by norm_num) (min_le_left _ _)
    · rw [if_neg hk] at hfh
      exact absurd hfh (by simp)
  · intro hrange h hh s hs
    have hmem : s ∈ vScores hits := List.mem_filterMap.mpr ⟨h, hh, hs⟩
    have hne : vScores hits ≠ [] := by
      intro h0
      rw [h0] at hmem
      exact absurd hmem (List.not_mem_nil s)
    obtain ⟨mx, hmx⟩ := listMax_isSome hne
    obtain ⟨mn, hmn⟩ := listMin_isSome hne
    have hvmax : vMax hits = mx := by simp [vMax, hmx]
    have hvmin : vMin hits = mn := by simp [vMin, hmn]
    have hsx : s ≤ mx := listMax_spec _ mx hmx s hmem
    have hns : mn ≤ s := listMin_spec _ mn hmn s hmem
    have hrange' : vRange hits = mx - mn := by
      simp [vRange, hne, hvmax, hvmin]
    have hrpos : (0 : ℚ) < mx - mn := by
      rw [hrange'] at hrange
      linarith
    have hraw : vRaw h = s := by simp [vRaw, hs]
    have hq0 : 0 ≤ (s - vMin hits) / vRange hits := by
      rw [hvmin, hrange']
      exact div_nonneg (by linarith) (le_of_lt hrpos)
    have hq1 : (s - vMin hits) / vRange hits ≤ 1 := by
      rw [hvmin, hrange', div_le_one hrpos]
      linarith
    unfold vConf
    rw [hraw, if_pos hrange, min_eq_right hq1, max_eq_right hq0]
  · intro hr h
    have hguard : ¬ ((1/100 : ℚ) < vRange hits) := not_lt.mpr hr
    constructor
    · intro hraw0
      have hm1 : min (vRaw h) 1 ≤ 1 := min_le_right _ _
      have hm0 : 0 ≤ min (vRaw h) 1 := le_min hraw0 (by norm_num)
      unfold vConf
      rw [if_neg hguard, if_pos hraw0, min_eq_right hm1, max_eq_right hm0]
    · intro hraw
      have hraw' : ¬ (0 ≤ vRaw h) := not_le.mpr hraw
      unfold vConf
      rw [if_neg hguard, if_neg hraw']
      norm_num

/-- Witness for C4 amended at the Scenario-B input: the spread 0.79 exceeds
0.01, so the first hit's confidence is the min-max normalization of its raw
score 0.91. -/
theorem vector_normalization_spec_witness :
    vConf hitsB hitB1 = (91/100 - vMin hitsB) / vRange hitsB :=
  (vector_normalization_spec hitsB none).2.1
    (by rw [show vRange hitsB = 79/100 from hitsB_range]; norm_num)
    hitB1 (by simp [hitsB]) (91/100) rfl

/-! Temporal comparator, from app/services/bim_analysis.py,
BIMAnalysisService._compare_with_previous_analysis: the status-change part.
Python set operations on truthy element ids are modelled through
membership in the list of truthy ids; the falsy ids (missing key, None or
the empty string) never enter the id sets. -/

/-- An element as consumed by the comparator. -/
structure CmpElem where
  element_id : Option (List Char)
  element_type : List Char
  status : Option ProgressStatus
deriving DecidableEq, Repr

/-- One emitted status_change entry. -/
structure ChangedEntry where
  element_id : List Char
  element_type : List Char
  previous_status : Option ProgressStatus
  current_status : Option ProgressStatus
deriving DecidableEq, Repr

/-- Truthy element id of a record: present and nonempty. -/
def truthyId (e : CmpElem) : Option (List Char) :=
  match e.element_id with
  | some l => if l = [] then none else some l
  | none => none

/-- The truthy ids of a list, in order (the Python code builds a set of
them; only membership matters downstream). -/
def truthyIds (l : List CmpElem) : List (List Char) :=
  l.filterMap truthyId

/-- Emission step once the matching previous element has been looked up:
an entry is produced only when the statuses differ. -/
def statusDiffEntry (c : CmpElem) (found : Option CmpElem) (id : List Char) :
    Option ChangedEntry :=
  match found with
  | none => none
  | some p =>
    if c.status ≠ p.status then
      some ⟨id, c.element_type, p.status, c.status⟩
    else none

/-- The body of the status-change loop for one current element: skip unless
its id is common to both analyses, look up the first previous element with
that id, emit an entry when the statuses differ. -/
def changeEntry? (cur prev : List CmpElem) (c : CmpElem) : Option ChangedEntry :=
  match c.element_id with
  | none => none
  | some id =>
    if id ∈ truthyIds cur ∧ id ∈ truthyIds prev then
      statusDiffEntry c (prev.find? (fun p => decide (p.element_id = some id))) id
    else none

/-- Model of the elements_changed list of _compare_with_previous_analysis. -/
def elements_changed (cur prev : List CmpElem) : List ChangedEntry :=
  cur.filterMap (changeEntry? cur prev)

theorem truthyId_of_eq {p : CmpElem} {id : List Char} (hid : id ≠ [])
    (hp : p.element_id = some id) : truthyId p = some id := by
  simp [truthyId, hp, hid]

theorem truthy_uniq {l : List CmpElem} (hl : (truthyIds l).Nodup)
    {id : List Char} (hid : id ≠ []) :
    ∀ p₁ ∈ l, ∀ p₂ ∈ l,
      p₁.element_id = some id → p₂.element_id = some id → p₁ = p₂ := by
  induction l with
  | nil => intro p₁ h; simp at h
  | cons q rest ih =>
    intro p₁ h₁ p₂ h₂ he₁ he₂
    rcases List.mem_cons.mp h₁ with h1e | h1m
    · rcases List.mem_cons.mp h₂ with h2e | h2m
      · rw [h1e, h2e]
      · exfalso
        have hq : truthyIds (q :: rest) = id :: truthyIds rest := by
          simp [truthyIds, List.filterMap_cons,
            truthyId_of_eq hid (h1e ▸ he₁ : q.element_id = some id)]
        rw [hq] at hl
        exact (List.nodup_cons.mp hl).1
          (List.mem_filterMap.mpr ⟨p₂, h2m, truthyId_of_eq hid he₂⟩)
    · rcases List.mem_cons.mp h₂ with h2e | h2m
      · exfalso
        have hq : truthyIds (q :: rest) = id :: truthyIds rest := by
          simp [truthyIds, List.filterMap_cons,
            truthyId_of_eq hid (h2e ▸ he₂ : q.element_id = some id)]
        rw [hq] at hl
        exact (List.nodup_cons.mp hl).1
          (List.mem_filterMap.mpr ⟨p₁, h1m, truthyId_of_eq hid he₁⟩)
      · refine ih ?_ p₁ h1m p₂ h2m he₁ he₂
        cases htq : truthyId q with
        | none =>
          have hq : truthyIds (q :: rest) = truthyIds rest := by
            simp [truthyIds, List.filterMap_cons, htq]
          rw [hq] at hl
          exact hl
        | some t =>
          have hq : truthyIds (q :: rest) = t :: truthyIds rest := by
            simp [truthyIds, List.filterMap_cons, htq]
          rw [hq] at hl
          exact (List.nodup_cons.mp hl).2

theorem countP_unique {l : List CmpElem} (hl : (truthyIds l).Nodup)
    {id : List Char} (hid : id ≠ []) (g : CmpElem → Bool)
    (hg : ∀ c ∈ l, g c = true → c.element_id = some id)
    {c₀ : CmpElem} (hc₀ : c₀ ∈ l) (he₀ : c₀.element_id = some id)
    (hg₀ : g c₀ = true) :
    l.countP g = 1 := by
  induction l with
  | nil => simp at hc₀
  | cons q rest ih =>
    rcases List.mem_cons.mp hc₀ with rfl | hc₀
    · have hq : truthyIds (c₀ :: rest) = id :: truthyIds rest := by
        simp [truthyIds, List.filterMap_cons, truthyId_of_eq hid he₀]
      rw [hq] at hl
      have hrest0 : rest.countP g = 0 := by
        rw [List.countP_eq_zero]
        intro c hc hgc
        have hce : c.element_id = some id :=
          hg c (List.mem_cons_of_mem _ hc) hgc
        exact (List.nodup_cons.mp hl).1
          (List.mem_filterMap.mpr ⟨c, hc, truthyId_of_eq hid hce⟩)
      rw [List.countP_cons, hrest0, hg₀]
      simp
    · have hgq : g q = false := by
        cases h : g q with
        | false => rfl
        | true =>
          exfalso
          have hqe : q.element_id = some id :=
            hg q (List.mem_cons_self q rest) h
          have hq : truthyIds (q :: rest) = id :: truthyIds rest := by
            simp [truthyIds, List.filterMap_cons, truthyId_of_eq hid hqe]
          rw [hq] at hl
          exact (List.nodup_cons.mp hl).1
            (List.mem_filterMap.mpr ⟨c₀, hc₀, truthyId_of_eq hid he₀⟩)
      have hltail : (truthyIds rest).Nodup := by
        cases htq : truthyId q with
        | none =>
          have hq : truthyIds (q :: rest) = truthyIds rest := by
            simp [truthyIds, List.filterMap_cons, htq]
          rw [hq] at hl
          exact hl
        | some t =>
          have hq : truthyIds (q :: rest) = t :: truthyIds rest := by
            simp [truthyIds, List.filterMap_cons, htq]
          rw [hq] at hl
          exact (List.nodup_cons.mp hl).2
      rw [List.countP_cons, hgq]
      simp only [Bool.false_eq_true, if_false, Nat.add_zero]
      exact ih hltail (fun c hc => hg c (List.mem_cons_of_mem _ hc)) hc₀

theorem changeEntry_inv {cur prev : List CmpElem} {c : CmpElem}
    {e : ChangedEntry} (h : changeEntry? cur prev c = some e) :
    c.element_id = some e.element_id ∧ e.current_status = c.status ∧
      e.element_type = c.element_type ∧
      ∃ p, p ∈ prev ∧ p.element_id = some e.element_id ∧
        e.previous_status = p.status ∧ c.status ≠ p.status := by
  rcases hcid : c.element_id with _ | id
  · simp [changeEntry?, hcid] at h
  · simp only [changeEntry?, hcid] at h
    by_cases hcm : id ∈ truthyIds cur ∧ id ∈ truthyIds prev
    · rw [if_pos hcm] at h
      cases hfind : prev.find? (fun p => decide (p.element_id = some id)) with
      | none =>
        rw [hfind] at h
        simp [statusDiffEntry] at h
      | some p =>
        rw [hfind] at h
        simp only [statusDiffEntry] at h
        by_cases hst : c.status ≠ p.status
        · rw [if_pos hst] at h
          have he := Option.some.inj h
          subst he
          have hdec := List.find?_some hfind
          simp only [decide_eq_true_eq] at hdec
          have hpe : p.element_id = some id := hdec
          exact ⟨rfl, rfl, rfl,
            p, List.mem_of_find?_eq_some hfind, hpe, rfl, hst⟩
        · rw [if_neg hst] at h
          simp at h
    · rw [if_neg hcm] at h
      simp at h

theorem changeEntry_total {cur prev : List CmpElem}
    (hprev : (truthyIds prev).Nodup) {c : CmpElem} {id : List Char}
    (hid : id ≠ []) (hc : c ∈ cur) (hce : c.element_id = some id)
    {p : CmpElem} (hp : p ∈ prev) (hpe : p.element_id = some id)
    (hne : c.status ≠ p.status) :
    changeEntry? cur prev c = some ⟨id, c.element_type, p.status, c.status⟩ := by
  have hcm : id ∈ truthyIds cur ∧ id ∈ truthyIds prev :=
    ⟨List.mem_filterMap.mpr ⟨c, hc, truthyId_of_eq hid hce⟩,
     List.mem_filterMap.mpr ⟨p, hp, truthyId_of_eq hid hpe⟩⟩
  have hfs : (prev.find? (fun q => decide (q.element_id = some id))).isSome := by
    rw [List.find?_isSome]
    exact ⟨p, hp, decide_eq_true hpe⟩
  obtain ⟨p', hfind⟩ := Option.isSome_iff_exists.mp hfs
  have hp'm := List.mem_of_find?_eq_some hfind
  have hdec := List.find?_some hfind
  simp only [decide_eq_true_eq] at hdec
  have hp'e : p'.element_id = some id := hdec
  have hpp : p' = p := truthy_uniq hprev hid p' hp'm p hp hp'e hpe
  subst hpp
  simp only [changeEntry?, hce]
  rw [if_pos hcm, hfind]
  simp only [statusDiffEntry]
  rw [if_pos hne]

/-- C10: with unique truthy ids on each side, the comparator emits a
status_change entry exactly for the element_ids common to both analyses
whose status differs; each emitted entry carries the previous and current
statuses of the matching records (backward transitions included, since only
status inequality is tested); ids meeting the condition produce exactly one
entry and ids failing it produce none. -/
theorem compare_status_change_spec (cur prev : List CmpElem)
    (hcur : (truthyIds cur).Nodup) (hprev : (truthyIds prev).Nodup) :
    (∀ e ∈ elements_changed cur prev, ∃ c, c ∈ cur ∧
      c.element_id = some e.element_id ∧ e.current_status = c.status ∧
      ∃ p, p ∈ prev ∧ p.element_id = some e.element_id ∧
        e.previous_status = p.status ∧ c.status ≠ p.status) ∧
    (∀ id : List Char, id ≠ [] →
      ∀ c ∈ cur, c.element_id = some id →
      ∀ p ∈ prev, p.element_id = some id →
      c.status ≠ p.status →
      (elements_changed cur prev).countP
        (fun e => decide (e.element_id = id)) = 1) ∧
    (∀ id : List Char,
      (∀ c ∈ cur, ∀ p ∈ prev, c.element_id = some id →
        p.element_id = some id → c.status = p.status) →
      (elements_changed cur prev).countP
        (fun e => decide (e.element_id = id)) = 0) := by
  refine ⟨?_, ?_, ?_⟩
  · intro e he
    rcases List.mem_filterMap.mp he with ⟨c, hc, hfc⟩
    rcases changeEntry_inv hfc with ⟨h1, h2, _, p, hp, hpe, hps, hne⟩
    exact ⟨c, hc, h1, h2, p, hp, hpe, hps, hne⟩
  · intro id hid c hc hce p hp hpe hne
    rw [elements_changed, List.countP_filterMap]
    refine countP_unique hcur hid _ ?_ hc hce ?_
    · intro c' hc' hg
      cases hfc' : changeEntry? cur prev c' with
      | none => rw [hfc'] at hg; simp at hg
      | some e =>
        rw [hfc'] at hg
        simp at hg
        have h1 := (changeEntry_inv hfc').1
        rw [hg] at h1
        exact h1
    · rw [changeEntry_total hprev hid hc hce hp hpe hne]
      simp
  · intro id hall
    rw [elements_changed, List.countP_filterMap, List.countP_eq_zero]
    intro c hc hg
    cases hfc : changeEntry? cur prev c with
    | none => rw [hfc] at hg; simp at hg
    | some e =>
      rw [hfc] at hg
      simp at hg
      rcases changeEntry_inv hfc with ⟨h1, _, _, p, hp, hpe, _, hne⟩
      rw [hg] at h1 hpe
      exact hne (hall c hc p hp h1 hpe)

/-- Witness for C10 at Scenario D: element X was COMPLETED in the previous
analysis and IN_PROGRESS in the current one, giving exactly one
status_change entry. -/
theorem compare_status_change_spec_witness :
    (elements_changed
        [⟨some ['x'], ['e'], some ProgressStatus.IN_PROGRESS⟩]
        [⟨some ['x'], ['e'], some ProgressStatus.COMPLETED⟩]).countP
      (fun e => decide (e.element_id = ['x'])) = 1 :=
  (compare_status_change_spec
      [⟨some ['x'], ['e'], some ProgressStatus.IN_PROGRESS⟩]
      [⟨some ['x'], ['e'], some ProgressStatus.COMPLETED⟩]
      (by decide) (by decide)).2.1
    ['x'] (by decide)
    ⟨some ['x'], ['e'], some ProgressStatus.IN_PROGRESS⟩ (by decide) (by decide)
    ⟨some ['x'], ['e'], some ProgressStatus.COMPLETED⟩ (by decide) (by decide)
    (by decide)

/-! Semantic deduplicator, from app/services/ifc_processor.py,
IFCProcessorService.dedupe_elements and _normalized_identity.  The seen
dict is modelled as an association list in insertion order keyed by the
normalized identity.  Python's list(set(a + b)) id merge has an unspecified
element order; it is modelled with List.dedup, and only the id set of a
group is reasoned about.  A record is a loosely typed dict: the fields the
code reads are modelled, plus a similarity_score payload field that
dedupe_elements never touches. -/

/-- An element record as consumed by dedupe_elements. -/
structure RawElem where
  element_id : Option (List Char)
  element_type : Option (List Char)
  name : Option (List Char)
  similarity_score : Option ℚ
  element_ids_group : Option (List (List Char))
deriving DecidableEq, Repr

/-- Model of _normalized_identity: lowercased trimmed type and name joined
by a bar (missing fields read as the empty string). -/
def normIdent (e : RawElem) : List Char :=
  lowerChars (trimChars (e.element_type.getD [])) ++ ['|'] ++
    lowerChars (trimChars (e.name.getD []))

/-- The element_ids_group list of a record, empty when the key is absent. -/
def groupOf (e : RawElem) : List (List Char) :=
  e.element_ids_group.getD []

/-- The id list obtained by appending the record's own truthy element_id
to its (possibly freshly initialized) id group. -/
def ownIdAppended (e : RawElem) : List (List Char) :=
  match e.element_id with
  | some id => if id = [] then groupOf e else groupOf e ++ [id]
  | none => groupOf e

/-- The per-record mutation at loop entry: ensure element_ids_group exists
and append the record's own truthy element_id to it. -/
def appendOwnId (e : RawElem) : RawElem :=
  { e with element_ids_group := some (ownIdAppended e) }

/-- Merge of an incoming record's id group into the group representative:
ids are united (list(set(...)) in the source); all other fields of the
representative are kept unchanged. -/
def mergeIds (old incoming : RawElem) : RawElem :=
  { old with element_ids_group := some ((groupOf old ++ groupOf incoming).dedup) }

/-- One loop iteration of dedupe_elements over the seen map. -/
def dedupeStep (seen : List (List Char × RawElem)) (e : RawElem) :
    List (List Char × RawElem) :=
  if (seen.find? (fun p => decide (p.1 = normIdent e))).isSome then
    seen.map (fun p =>
      if p.1 = normIdent e then (p.1, mergeIds p.2 (appendOwnId e)) else p)
  else seen ++ [(normIdent e, appendOwnId e)]

/-- Model of IFCProcessorService.dedupe_elements: fold the records through
the seen map and return its values in insertion order. -/
def dedupe_elements (elements : List RawElem) : List RawElem :=
  (elements.foldl dedupeStep []).map Prod.snd

/-- The identifying fields of a record other than the id group. -/
def fieldsOf (e : RawElem) :
    Option (List Char) × Option (List Char) × Option (List Char) × Option ℚ :=
  (e.element_id, e.element_type, e.name, e.similarity_score)

/-- Keys of the seen map. -/
def keysOf (seen : List (List Char × RawElem)) : List (List Char) :=
  seen.map Prod.fst

/-- Truthy element id of a raw record. -/
def rawTruthyId (e : RawElem) : Option (List Char) :=
  match e.element_id with
  | some l => if l = [] then none else some l
  | none => none

/-- The truthy input ids of a record list, in order. -/
def inputIds (x : List RawElem) : List (List Char) :=
  x.filterMap rawTruthyId

theorem fieldsOf_appendOwnId (e : RawElem) :
    fieldsOf (appendOwnId e) = fieldsOf e := rfl

theorem fieldsOf_mergeIds (old incoming : RawElem) :
    fieldsOf (mergeIds old incoming) = fieldsOf old := rfl

theorem normIdent_appendOwnId (e : RawElem) :
    normIdent (appendOwnId e) = normIdent e := rfl

theorem normIdent_mergeIds (old incoming : RawElem) :
    normIdent (mergeIds old incoming) = normIdent old := rfl

/-- C3 counterexample: on a single-record input, re-running dedupe on its
own output appends the record's element_id to the id group a second time,
so the output record differs from the input record and literal idempotence
fails. -/
theorem dedupe_idempotent_counterexample :
    dedupe_elements (dedupe_elements
        [⟨some ['a'], some ['w'], some ['n'], none, none⟩]) ≠
      dedupe_elements [⟨some ['a'], some ['w'], some ['n'], none, none⟩] ∧
    (dedupe_elements (dedupe_elements
        [⟨some ['a'], some ['w'], some ['n'], none, none⟩])).map groupOf =
      [[['a'], ['a']]] ∧
    (dedupe_elements [⟨some ['a'], some ['w'], some ['n'], none, none⟩]).map
        groupOf = [[['a']]] := by
  refine ⟨by decide, by decide, by decide⟩

/-- C6 counterexample: two records with the same normalized identity, the
second carrying the strictly higher similarity score 9; the surviving
representative keeps the fields of the first record (score 1, id a), so the
higher-scoring record did not replace it. -/
theorem dedupe_no_score_replacement_counterexample :
    (dedupe_elements [⟨some ['a'], some ['w'], some ['n'], some 1, none⟩,
        ⟨some ['b'], some ['w'], some ['n'], some 9, none⟩]).map
      (fun r => r.similarity_score) = [some 1] ∧
    (dedupe_elements [⟨some ['a'], some ['w'], some ['n'], some 1, none⟩,
        ⟨some ['b'], some ['w'], some ['n'], some 9, none⟩]).map
      (fun r => r.element_id) = [some ['a']] ∧
    (1 : ℚ) < 9 := by
  refine ⟨by decide, by decide, by decide⟩

theorem key_mem_iff_find? (seen : List (List Char × RawElem)) (k : List Char) :
    k ∈ keysOf seen ↔ (seen.find? (fun p => decide (p.1 = k))).isSome := by
  constructor
  · intro hk
    rcases List.mem_map.mp hk with ⟨p, hp, hpe⟩
    rw [List.find?_isSome]
    exact ⟨p, hp, decide_eq_true hpe⟩
  · intro hf
    rcases List.find?_isSome.mp hf with ⟨p, hp, hpd⟩
    exact List.mem_map.mpr ⟨p, hp, of_decide_eq_true hpd⟩

theorem map_upd_id {s : List (List Char × RawElem)} (e : RawElem)
    (hs : ∀ p ∈ s, p.1 ≠ normIdent e) :
    s.map (fun p =>
      if p.1 = normIdent e then (p.1, mergeIds p.2 (appendOwnId e)) else p) = s := by
  induction s with
  | nil => rfl
  | cons q rest ih =>
    rw [List.map_cons, if_neg (hs q (List.mem_cons_self q rest)),
      ih (fun p hp => hs p (List.mem_cons_of_mem _ hp))]

theorem keysOf_map_upd (seen : List (List Char × RawElem)) (e : RawElem) :
    keysOf (seen.map (fun p =>
        if p.1 = normIdent e then (p.1, mergeIds p.2 (appendOwnId e)) else p)) =
      keysOf seen := by
  unfold keysOf
  rw [List.map_map]
  apply List.map_congr_left
  intro p _
  by_cases h : p.1 = normIdent e <;> simp [h]

theorem keysOf_append (seen : List (List Char × RawElem))
    (q : List Char × RawElem) :
    keysOf (seen ++ [q]) = keysOf seen ++ [q.1] := by
  simp [keysOf]

theorem keysOf_foldl_nodup (x : List RawElem) :
    ∀ seen, (keysOf seen).Nodup →
      (keysOf (x.foldl dedupeStep seen)).Nodup := by
  induction x with
  | nil => intro seen h; exact h
  | cons e rest ih =>
    intro seen h
    apply ih
    unfold dedupeStep
    by_cases hf : (seen.find? (fun p => decide (p.1 = normIdent e))).isSome
    · rw [if_pos hf, keysOf_map_upd]
      exact h
    · rw [if_neg hf, keysOf_append]
      rw [List.nodup_append]
      refine ⟨h, List.nodup_singleton _, ?_⟩
      intro a ha hae
      rcases List.mem_singleton.mp hae with rfl
      exact hf ((key_mem_iff_find? seen _).mp ha)

theorem group_mergeIds_mem {old incoming : RawElem} {id : List Char}
    (h : id ∈ groupOf old ∨ id ∈ groupOf incoming) :
    id ∈ groupOf (mergeIds old incoming) := by
  have : groupOf (mergeIds old incoming) =
      (groupOf old ++ groupOf incoming).dedup := rfl
  rw [this, List.mem_dedup, List.mem_append]
  exact h

/-- Invariant of a seen-map entry: its key is the normalized identity of
its representative, and the representative's own truthy id is already in
its group. -/
def EntryInv (p : List Char × RawElem) : Prop :=
  normIdent p.2 = p.1 ∧
    ∀ id, p.2.element_id = some id → id ≠ [] → id ∈ groupOf p.2

theorem entryInv_appendOwnId (e : RawElem) : EntryInv (normIdent e, appendOwnId e) := by
  refine ⟨rfl, ?_⟩
  intro id hid hne
  have hid' : e.element_id = some id := hid
  have hgr : groupOf (appendOwnId e) = ownIdAppended e := rfl
  rw [hgr]
  simp [ownIdAppended, hid', hne]

theorem entryInv_mergeIds {k : List Char} {old : RawElem} (incoming : RawElem)
    (h : EntryInv (k, old)) : EntryInv (k, mergeIds old incoming) := by
  refine ⟨by rw [normIdent_mergeIds]; exact h.1, ?_⟩
  intro id hid hne
  exact group_mergeIds_mem (Or.inl (h.2 id hid hne))

theorem entryInv_foldl (x : List RawElem) :
    ∀ seen, (∀ p ∈ seen, EntryInv p) →
      ∀ p ∈ x.foldl dedupeStep seen, EntryInv p := by
  induction x with
  | nil => intro seen h; exact h
  | cons e rest ih =>
    intro seen h
    apply ih
    intro p hp
    unfold dedupeStep at hp
    by_cases hf : (seen.find? (fun p => decide (p.1 = normIdent e))).isSome
    · rw [if_pos hf] at hp
      rcases List.mem_map.mp hp with ⟨p₀, hp₀, hpe⟩
      by_cases hk : p₀.1 = normIdent e
      · rw [if_pos hk] at hpe
        rw [← hpe]
        have h₀ := h p₀ hp₀
        rcases p₀ with ⟨k₀, r₀⟩
        exact entryInv_mergeIds _ h₀
      · rw [if_neg hk] at hpe
        rw [← hpe]
        exact h p₀ hp₀
    · rw [if_neg hf] at hp
      rcases List.mem_append.mp hp with hp | hp
      · exact h p hp
      · rcases List.mem_singleton.mp hp with rfl
        exact entryInv_appendOwnId e

theorem foldl_fresh (x : List RawElem) :
    ∀ seen, List.Pairwise (fun a b => normIdent a ≠ normIdent b) x →
      (∀ e ∈ x, normIdent e ∉ keysOf seen) →
      x.foldl dedupeStep seen =
        seen ++ x.map (fun e => (normIdent e, appendOwnId e)) := by
  induction x with
  | nil => intro seen _ _; simp
  | cons e rest ih =>
    intro seen hpair hdisj
    have hnk : normIdent e ∉ keysOf seen :=
      hdisj e (List.mem_cons_self e rest)
    have hf : ¬ (seen.find? (fun p => decide (p.1 = normIdent e))).isSome := by
      intro hs
      exact hnk ((key_mem_iff_find? seen _).mpr hs)
    have hstep : dedupeStep seen e = seen ++ [(normIdent e, appendOwnId e)] := by
      unfold dedupeStep
      rw [if_neg hf]
    rw [List.foldl_cons, hstep,
      ih _ (List.pairwise_cons.mp hpair).2 ?_]
    · simp
    · intro r hr
      rw [keysOf_append]
      intro hmem
      rcases List.mem_append.mp hmem with hmem | hmem
      · exact hdisj r (List.mem_cons_of_mem _ hr) hmem
      · rcases List.mem_singleton.mp hmem with hmem
        exact (List.pairwise_cons.mp hpair).1 r hr hmem.symm

theorem dedupe_entries_inv (x : List RawElem) :
    ∀ p ∈ x.foldl dedupeStep [], EntryInv p :=
  entryInv_foldl x [] (by intro p hp; exact absurd hp (List.not_mem_nil p))

theorem dedupe_idents_pairwise (x : List RawElem) :
    List.Pairwise (fun a b => normIdent a ≠ normIdent b) (dedupe_elements x) := by
  have hkeys : (keysOf (x.foldl dedupeStep [])).Nodup :=
    keysOf_foldl_nodup x [] (by simp [keysOf])
  have hmapeq : (dedupe_elements x).map normIdent = keysOf (x.foldl dedupeStep []) := by
    unfold dedupe_elements keysOf
    rw [List.map_map]
    apply List.map_congr_left
    intro p hp
    exact (dedupe_entries_inv x p hp).1
  have hnd : ((dedupe_elements x).map normIdent).Nodup := by
    rw [hmapeq]
    exact hkeys
  rw [List.Nodup, List.pairwise_map] at hnd
  exact hnd.imp (fun h => h)

/-- C3 amended: dedupe is idempotent up to the duplicated self-id: re-running
dedupe on its own output yields the same groups in the same order, with every
representative keeping the same element_id, type, name and score, and with
the same element_ids_group id set; only the group list gains a duplicate of
the representative's own id (so literal list equality fails, as the
counterexample shows). -/
theorem dedupe_idempotent_upto (x : List RawElem) :
    List.Forall₂ (fun a b => fieldsOf a = fieldsOf b ∧
        (groupOf a).toFinset = (groupOf b).toFinset)
      (dedupe_elements (dedupe_elements x)) (dedupe_elements x) := by
  have hpair := dedupe_idents_pairwise x
  have hfold := foldl_fresh (dedupe_elements x) [] hpair (by simp [keysOf])
  have hy : dedupe_elements (dedupe_elements x) =
      (dedupe_elements x).map appendOwnId := by
    show ((dedupe_elements x).foldl dedupeStep []).map Prod.snd = _
    rw [hfold, List.nil_append, List.map_map]
    rfl
  rw [hy, List.forall₂_map_left_iff, List.forall₂_same]
  intro r hr
  refine ⟨fieldsOf_appendOwnId r, ?_⟩
  have hinv : ∀ id, r.element_id = some id → id ≠ [] → id ∈ groupOf r := by
    rcases List.mem_map.mp hr with ⟨p, hp, hpe⟩
    intro id hid hne
    have hEI := dedupe_entries_inv x p hp
    rw [← hpe]
    exact hEI.2 id (by rw [hpe]; exact hid) hne
  have hgr : groupOf (appendOwnId r) = ownIdAppended r := rfl
  rw [hgr]
  cases hid : r.element_id with
  | none => simp [ownIdAppended, hid]
  | some id =>
    by_cases hne : id = []
    · simp [ownIdAppended, hid, hne]
    · have hmem := hinv id hid hne
      simp only [ownIdAppended, hid, if_neg hne]
      rw [List.toFinset_append]
      have hsing : ([id] : List (List Char)).toFinset = {id} := by simp
      rw [hsing]
      exact Finset.union_eq_left.mpr
        (Finset.singleton_subset_iff.mpr (List.mem_toFinset.mpr hmem))

theorem foldl_first_fields (x : List RawElem) :
    ∀ seen, ∀ q ∈ x.foldl dedupeStep seen,
      (∃ p, p ∈ seen ∧ p.1 = q.1 ∧ fieldsOf p.2 = fieldsOf q.2) ∨
      (q.1 ∉ keysOf seen ∧ ∃ e,
        x.find? (fun e' => decide (normIdent e' = q.1)) = some e ∧
        fieldsOf q.2 = fieldsOf e) := by
  induction x with
  | nil =>
    intro seen q hq
    exact Or.inl ⟨q, hq, rfl, rfl⟩
  | cons e rest ih =>
    intro seen q hq
    rw [List.foldl_cons] at hq
    rcases ih (dedupeStep seen e) q hq with ⟨p, hp, hpk, hpf⟩ | ⟨hnk, e₁, hfind, hf⟩
    · unfold dedupeStep at hp
      by_cases hf0 : (seen.find? (fun p => decide (p.1 = normIdent e))).isSome
      · rw [if_pos hf0] at hp
        rcases List.mem_map.mp hp with ⟨p₀, hp₀, hpe⟩
        by_cases hk : p₀.1 = normIdent e
        · rw [if_pos hk] at hpe
          refine Or.inl ⟨p₀, hp₀, ?_, ?_⟩
          · rw [← hpk, ← hpe]
          · rw [← hpf, ← hpe]
            exact (fieldsOf_mergeIds p₀.2 (appendOwnId e)).symm
        · rw [if_neg hk] at hpe
          exact Or.inl ⟨p₀, hp₀, by rw [hpe, hpk], by rw [hpe, hpf]⟩
      · rw [if_neg hf0] at hp
        rcases List.mem_append.mp hp with hp | hp
        · exact Or.inl ⟨p, hp, hpk, hpf⟩
        · rcases List.mem_singleton.mp hp with rfl
          refine Or.inr ⟨?_, e, ?_, ?_⟩
          · rw [← hpk]
            intro hmem
            exact hf0 ((key_mem_iff_find? seen (normIdent e)).mp hmem)
          · apply List.find?_cons_of_pos
            rw [← hpk]
            exact decide_eq_true rfl
          · rw [← hpf]
            exact fieldsOf_appendOwnId e
    · unfold dedupeStep at hnk
      by_cases hf0 : (seen.find? (fun p => decide (p.1 = normIdent e))).isSome
      · rw [if_pos hf0, keysOf_map_upd] at hnk
        have hke : normIdent e ∈ keysOf seen :=
          (key_mem_iff_find? seen _).mpr hf0
        have hne : normIdent e ≠ q.1 := by
          intro h
          exact hnk (h ▸ hke)
        refine Or.inr ⟨hnk, e₁, ?_, hf⟩
        rw [← hfind]
        apply List.find?_cons_of_neg
        simp [hne]
      · rw [if_neg hf0, keysOf_append] at hnk
        have hnk1 : q.1 ∉ keysOf seen := by
          intro h
          exact hnk (List.mem_append.mpr (Or.inl h))
        have hne : normIdent e ≠ q.1 := by
          intro h
          exact hnk (List.mem_append.mpr (Or.inr (List.mem_singleton.mpr h.symm)))
        refine Or.inr ⟨hnk1, e₁, ?_, hf⟩
        rw [← hfind]
        apply List.find?_cons_of_neg
        simp [hne]

theorem foldl_ids_preserved (x : List RawElem) :
    ∀ seen (id : List Char),
      ((∃ p, p ∈ seen ∧ id ∈ groupOf p.2) ∨
        (∃ e, e ∈ x ∧ e.element_id = some id ∧ id ≠ [])) →
      ∃ q, q ∈ x.foldl dedupeStep seen ∧ id ∈ groupOf q.2 := by
  induction x with
  | nil =>
    intro seen id h
    rcases h with ⟨p, hp, hid⟩ | ⟨e, he, _⟩
    · exact ⟨p, hp, hid⟩
    · exact absurd he (List.not_mem_nil e)
  | cons e rest ih =>
    intro seen id h
    rw [List.foldl_cons]
    rcases h with ⟨p, hp, hid⟩ | ⟨e₀, he₀, heid, hne⟩
    · apply ih
      left
      unfold dedupeStep
      by_cases hf0 : (seen.find? (fun p => decide (p.1 = normIdent e))).isSome
      · rw [if_pos hf0]
        by_cases hk : p.1 = normIdent e
        · refine ⟨(p.1, mergeIds p.2 (appendOwnId e)), ?_, ?_⟩
          · refine List.mem_map.mpr ⟨p, hp, ?_⟩
            simp [hk]
          · exact group_mergeIds_mem (Or.inl hid)
        · refine ⟨p, ?_, hid⟩
          refine List.mem_map.mpr ⟨p, hp, ?_⟩
          simp [hk]
      · rw [if_neg hf0]
        exact ⟨p, List.mem_append.mpr (Or.inl hp), hid⟩
    · rcases List.mem_cons.mp he₀ with rfl | he₀
      · apply ih
        left
        have hgid : id ∈ groupOf (appendOwnId e₀) := by
          have hgr : groupOf (appendOwnId e₀) = ownIdAppended e₀ := rfl
          rw [hgr]
          simp [ownIdAppended, heid, hne]
        unfold dedupeStep
        by_cases hf0 : (seen.find? (fun p => decide (p.1 = normIdent e₀))).isSome
        · rw [if_pos hf0]
          rcases List.find?_isSome.mp hf0 with ⟨p₀, hp₀, hpd⟩
          have hpk : p₀.1 = normIdent e₀ := of_decide_eq_true hpd
          refine ⟨(p₀.1, mergeIds p₀.2 (appendOwnId e₀)), ?_, ?_⟩
          · refine List.mem_map.mpr ⟨p₀, hp₀, ?_⟩
            simp [hpk]
          · exact group_mergeIds_mem (Or.inr hgid)
        · rw [if_neg hf0]
          exact ⟨(normIdent e₀, appendOwnId e₀),
            List.mem_append.mpr (Or.inr (List.mem_singleton.mpr rfl)), hgid⟩
      · apply ih
        right
        exact ⟨e₀, he₀, heid, hne⟩

/-- C6 amended: during deduplication the group representative is never
replaced: every surviving representative keeps the element_id, type, name
and similarity score of the first input record of its identity group (the
incoming records' scores are never consulted), while every incoming truthy
element_id is still merged into some group's id set. -/
theorem dedupe_keeps_first_representative (x : List RawElem) :
    (∀ r ∈ dedupe_elements x, ∃ e,
      x.find? (fun e' => decide (normIdent e' = normIdent r)) = some e ∧
      fieldsOf r = fieldsOf e) ∧
    (∀ e ∈ x, ∀ id, e.element_id = some id → id ≠ [] →
      ∃ r, r ∈ dedupe_elements x ∧ id ∈ groupOf r) := by
  constructor
  · intro r hr
    rcases List.mem_map.mp hr with ⟨q, hq, hqe⟩
    rcases foldl_first_fields x [] q hq with ⟨p, hp, _⟩ | ⟨_, e, hfind, hf⟩
    · exact absurd hp (List.not_mem_nil p)
    · have hni : normIdent q.2 = q.1 := (dedupe_entries_inv x q hq).1
      refine ⟨e, ?_, ?_⟩
      · rw [← hqe, hni]
        exact hfind
      · rw [← hqe]
        exact hf
  · intro e he id heid hne
    rcases foldl_ids_preserved x [] id (Or.inr ⟨e, he, heid, hne⟩) with ⟨q, hq, hid⟩
    exact ⟨q.2, List.mem_map.mpr ⟨q, hq, rfl⟩, hid⟩

/-- Witness for C6 amended at the two-record input of the counterexample:
the higher-scoring second record's id b is still merged into a group. -/
theorem dedupe_keeps_first_representative_witness :
    ∃ r, r ∈ dedupe_elements
        [⟨some ['a'], some ['w'], some ['n'], some 1, none⟩,
         ⟨some ['b'], some ['w'], some ['n'], some 9, none⟩] ∧
      ['b'] ∈ groupOf r :=
  (dedupe_keeps_first_representative
      [⟨some ['a'], some ['w'], some ['n'], some 1, none⟩,
       ⟨some ['b'], some ['w'], some ['n'], some 9, none⟩]).2
    ⟨some ['b'], some ['w'], some ['n'], some 9, none⟩ (by decide)
    ['b'] rfl (by decide)

/-- C7 counterexample: two records share the element_id a but have
different normalized identities, so a lands in two distinct groups' id
sets; the claim that every input id appears in exactly one group fails. -/
theorem dedupe_partition_counterexample :
    (dedupe_elements [⟨some ['a'], some ['w'], some ['n'], none, none⟩,
        ⟨some ['a'], some ['d'], some ['m'], none, none⟩]).map groupOf =
      [[['a']], [['a']]] ∧
    (dedupe_elements [⟨some ['a'], some ['w'], some ['n'], none, none⟩,
        ⟨some ['a'], some ['d'], some ['m'], none, none⟩]).countP
      (fun r => decide (['a'] ∈ groupOf r)) = 2 := by
  refine ⟨by decide, by decide⟩

theorem seen_decompose {seen : List (List Char × RawElem)} {k : List Char}
    {old : RawElem} (hnd : (keysOf seen).Nodup) (hmem : (k, old) ∈ seen) :
    ∃ s1 s2, seen = s1 ++ (k, old) :: s2 ∧
      (∀ p ∈ s1, p.1 ≠ k) ∧ (∀ p ∈ s2, p.1 ≠ k) := by
  obtain ⟨s1, s2, hsplit⟩ := List.append_of_mem hmem
  subst hsplit
  rw [keysOf, List.map_append, List.map_cons] at hnd
  rcases List.nodup_append.mp hnd with ⟨_, hnd2, hdisj⟩
  refine ⟨s1, s2, rfl, ?_, ?_⟩
  · intro p hp hpk
    exact hdisj (List.mem_map.mpr ⟨p, hp, hpk⟩) (List.mem_cons_self k _)
  · intro p hp hpk
    exact (List.nodup_cons.mp hnd2).1 (List.mem_map.mpr ⟨p, hp, hpk⟩)

theorem countP_split (s1 s2 : List (List Char × RawElem))
    (q : List Char × RawElem) (P : (List Char × RawElem) → Bool) :
    (s1 ++ q :: s2).countP P =
      s1.countP P + s2.countP P + (if P q then 1 else 0) := by
  rw [List.countP_append, List.countP_cons]
  ring

theorem countP_pair_split (s1 s2 : List (List Char × RawElem))
    (k : List Char) (r : RawElem) (id : List Char) :
    (s1 ++ (k, r) :: s2).countP (fun p => decide (id ∈ groupOf p.2)) =
      s1.countP (fun p => decide (id ∈ groupOf p.2)) +
      s2.countP (fun p => decide (id ∈ groupOf p.2)) +
      (if id ∈ groupOf r then 1 else 0) := by
  rw [countP_split]
  congr 1
  simp

theorem dedupe_partition_fold (x : List RawElem) :
    ∀ seen, (keysOf seen).Nodup →
      (∀ p ∈ seen, (groupOf p.2).Nodup) →
      (∀ p ∈ seen, ∀ id ∈ groupOf p.2, id ∉ inputIds x) →
      (∀ e ∈ x, e.element_ids_group = none) →
      (∀ e ∈ x, ∃ id, e.element_id = some id ∧ id ≠ []) →
      (inputIds x).Nodup →
      (∀ id, (x.foldl dedupeStep seen).countP
          (fun p => decide (id ∈ groupOf p.2)) =
        seen.countP (fun p => decide (id ∈ groupOf p.2)) +
          (if id ∈ inputIds x then 1 else 0)) ∧
      (∀ p ∈ x.foldl dedupeStep seen, ∀ id ∈ groupOf p.2,
        (∃ q ∈ seen, id ∈ groupOf q.2) ∨ id ∈ inputIds x) := by
  induction x with
  | nil =>
    intro seen _ _ _ _ _ _
    constructor
    · intro id
      simp [inputIds]
    · intro p hp id hid
      exact Or.inl ⟨p, hp, hid⟩
  | cons e rest ih =>
    intro seen hkeys hgnodup hdisj h1 h2 hnodup
    obtain ⟨id_e, heid, hene⟩ := h2 e (List.mem_cons_self e rest)
    have hge : e.element_ids_group = none := h1 e (List.mem_cons_self e rest)
    have hgroupE : groupOf (appendOwnId e) = [id_e] := by
      have hg0 : groupOf e = [] := by simp [groupOf, hge]
      have hgr : groupOf (appendOwnId e) = ownIdAppended e := rfl
      rw [hgr]
      simp [ownIdAppended, heid, hene, hg0]
    have hIdsCons : inputIds (e :: rest) = id_e :: inputIds rest := by
      simp [inputIds, List.filterMap_cons, rawTruthyId, heid, hene]
    have hfresh : id_e ∉ inputIds rest := by
      rw [hIdsCons] at hnodup
      exact (List.nodup_cons.mp hnodup).1
    have hrestNodup : (inputIds rest).Nodup := by
      rw [hIdsCons] at hnodup
      exact (List.nodup_cons.mp hnodup).2
    have h1r : ∀ e' ∈ rest, e'.element_ids_group = none :=
      fun e' he' => h1 e' (List.mem_cons_of_mem _ he')
    have h2r : ∀ e' ∈ rest, ∃ id, e'.element_id = some id ∧ id ≠ [] :=
      fun e' he' => h2 e' (List.mem_cons_of_mem _ he')
    have hdisj_e : ∀ p ∈ seen, id_e ∉ groupOf p.2 := by
      intro p hp hmem
      exact hdisj p hp id_e hmem (by rw [hIdsCons]; exact List.mem_cons_self _ _)
    have hdisj_r : ∀ p ∈ seen, ∀ id ∈ groupOf p.2, id ∉ inputIds rest := by
      intro p hp id hid hmem
      exact hdisj p hp id hid (by rw [hIdsCons]; exact List.mem_cons_of_mem _ hmem)
    rw [List.foldl_cons]
    by_cases hf0 : (seen.find? (fun p => decide (p.1 = normIdent e))).isSome
    · obtain ⟨p₀, hp₀, hpd⟩ := List.find?_isSome.mp hf0
      have hpk : p₀.1 = normIdent e := of_decide_eq_true hpd
      have hmem : (normIdent e, p₀.2) ∈ seen := by
        rw [← hpk]
        exact hp₀
      obtain ⟨s1, s2, hsplit, hs1, hs2⟩ := seen_decompose hkeys hmem
      have hstep : dedupeStep seen e =
          s1 ++ (normIdent e, mergeIds p₀.2 (appendOwnId e)) :: s2 := by
        unfold dedupeStep
        rw [if_pos hf0, hsplit, List.map_append, List.map_cons,
          map_upd_id e hs1, map_upd_id e hs2]
        simp
      have hgold : (groupOf p₀.2).Nodup := hgnodup (normIdent e, p₀.2) hmem
      have hgoldfresh : id_e ∉ groupOf p₀.2 := hdisj_e (normIdent e, p₀.2) hmem
      have hmerged : groupOf (mergeIds p₀.2 (appendOwnId e)) =
          groupOf p₀.2 ++ [id_e] := by
        have hm : groupOf (mergeIds p₀.2 (appendOwnId e)) =
            (groupOf p₀.2 ++ groupOf (appendOwnId e)).dedup := rfl
        rw [hm, hgroupE]
        apply List.dedup_eq_self.mpr
        rw [List.nodup_append]
        refine ⟨hgold, List.nodup_singleton _, ?_⟩
        intro a ha hae
        rcases List.mem_singleton.mp hae with rfl
        exact hgoldfresh ha
      have hmergedNodup : (groupOf (mergeIds p₀.2 (appendOwnId e))).Nodup := by
        rw [hmerged, List.nodup_append]
        refine ⟨hgold, List.nodup_singleton _, ?_⟩
        intro a ha hae
        rcases List.mem_singleton.mp hae with rfl
        exact hgoldfresh ha
      rw [hstep]
      have hkeys' : (keysOf (s1 ++ (normIdent e,
          mergeIds p₀.2 (appendOwnId e)) :: s2)).Nodup := by
        have hkeq : keysOf (s1 ++ (normIdent e,
            mergeIds p₀.2 (appendOwnId e)) :: s2) = keysOf seen := by
          rw [hsplit]
          simp [keysOf]
        rw [hkeq]
        exact hkeys
      have hmem_seen : ∀ p ∈ s1 ++ (normIdent e,
          mergeIds p₀.2 (appendOwnId e)) :: s2,
          p ∈ seen ∨ p = (normIdent e, mergeIds p₀.2 (appendOwnId e)) := by
        intro p hp
        rcases List.mem_append.mp hp with hp | hp
        · exact Or.inl (by rw [hsplit]; exact List.mem_append.mpr (Or.inl hp))
        · rcases List.mem_cons.mp hp with rfl | hp
          · exact Or.inr rfl
          · exact Or.inl (by
              rw [hsplit]
              exact List.mem_append.mpr (Or.inr (List.mem_cons_of_mem _ hp)))
      have hgnodup' : ∀ p ∈ s1 ++ (normIdent e,
          mergeIds p₀.2 (appendOwnId e)) :: s2, (groupOf p.2).Nodup := by
        intro p hp
        rcases hmem_seen p hp with hp' | rfl
        · exact hgnodup p hp'
        · exact hmergedNodup
      have hdisj' : ∀ p ∈ s1 ++ (normIdent e,
          mergeIds p₀.2 (appendOwnId e)) :: s2,
          ∀ id ∈ groupOf p.2, id ∉ inputIds rest := by
        intro p hp id hid
        rcases hmem_seen p hp with hp' | rfl
        · exact hdisj_r p hp' id hid
        · rw [hmerged] at hid
          rcases List.mem_append.mp hid with hid | hid
          · exact hdisj_r _ hmem id hid
          · rcases List.mem_singleton.mp hid with rfl
            exact hfresh
      rcases ih _ hkeys' hgnodup' hdisj' h1r h2r hrestNodup with ⟨ihc, ihm⟩
      constructor
      · intro id
        rw [ihc id, countP_pair_split]
        have hseenc : seen.countP (fun p => decide (id ∈ groupOf p.2)) =
            s1.countP (fun p => decide (id ∈ groupOf p.2)) +
            s2.countP (fun p => decide (id ∈ groupOf p.2)) +
            (if id ∈ groupOf p₀.2 then 1 else 0) := by
          rw [hsplit, countP_pair_split]
        rw [hseenc, hIdsCons, hmerged]
        by_cases hc : id = id_e
        · subst hc
          simp [hgoldfresh, hfresh]
        · have hmm : (id ∈ groupOf p₀.2 ++ [id_e]) ↔ id ∈ groupOf p₀.2 := by
            rw [List.mem_append]
            simp [hc]
          have hcc : (id ∈ id_e :: inputIds rest) ↔ id ∈ inputIds rest := by
            rw [List.mem_cons]
            simp [hc]
          simp only [hmm, hcc]
      · intro p hp id hid
        rcases ihm p hp id hid with ⟨q, hq, hqid⟩ | hmemr
        · rcases hmem_seen q hq with hq' | rfl
          · exact Or.inl ⟨q, hq', hqid⟩
          · rw [hmerged] at hqid
            rcases List.mem_append.mp hqid with hqid | hqid
            · exact Or.inl ⟨(normIdent e, p₀.2), hmem, hqid⟩
            · rcases List.mem_singleton.mp hqid with rfl
              exact Or.inr (by rw [hIdsCons]; exact List.mem_cons_self _ _)
        · exact Or.inr (by rw [hIdsCons]; exact List.mem_cons_of_mem _ hmemr)
    · have hstep : dedupeStep seen e = seen ++ [(normIdent e, appendOwnId e)] := by
        unfold dedupeStep
        rw [if_neg hf0]
      rw [hstep]
      have hkeys' : (keysOf (seen ++ [(normIdent e, appendOwnId e)])).Nodup := by
        rw [keysOf_append, List.nodup_append]
        refine ⟨hkeys, List.nodup_singleton _, ?_⟩
        intro a ha hae
        rcases List.mem_singleton.mp hae with rfl
        exact hf0 ((key_mem_iff_find? seen _).mp ha)
      have hmem_seen : ∀ p ∈ seen ++ [(normIdent e, appendOwnId e)],
          p ∈ seen ∨ p = (normIdent e, appendOwnId e) := by
        intro p hp
        rcases List.mem_append.mp hp with hp | hp
        · exact Or.inl hp
        · exact Or.inr (List.mem_singleton.mp hp)
      have hgnodup' : ∀ p ∈ seen ++ [(normIdent e, appendOwnId e)],
          (groupOf p.2).Nodup := by
        intro p hp
        rcases hmem_seen p hp with hp' | rfl
        · exact hgnodup p hp'
        · rw [hgroupE]
          exact List.nodup_singleton _
      have hdisj' : ∀ p ∈ seen ++ [(normIdent e, appendOwnId e)],
          ∀ id ∈ groupOf p.2, id ∉ inputIds rest := by
        intro p hp id hid
        rcases hmem_seen p hp with hp' | rfl
        · exact hdisj_r p hp' id hid
        · rw [hgroupE] at hid
          rcases List.mem_singleton.mp hid with rfl
          exact hfresh
      rcases ih _ hkeys' hgnodup' hdisj' h1r h2r hrestNodup with ⟨ihc, ihm⟩
      constructor
      · intro id
        rw [ihc id, List.countP_append, hIdsCons]
        have hnew : ([(normIdent e, appendOwnId e)]).countP
            (fun p => decide (id ∈ groupOf p.2)) =
            (if id ∈ [id_e] then 1 else 0) := by
          rw [List.countP_cons]
          simp [hgroupE]
        rw [hnew]
        by_cases hc : id = id_e
        · subst hc
          simp [hfresh]
        · have hcc : (id ∈ id_e :: inputIds rest) ↔ id ∈ inputIds rest := by
            rw [List.mem_cons]
            simp [hc]
          have hee : (id ∈ [id_e]) ↔ False := by
            simp [hc]
          simp only [hcc, hee]
          simp
      · intro p hp id hid
        rcases ihm p hp id hid with ⟨q, hq, hqid⟩ | hmemr
        · rcases hmem_seen q hq with hq' | rfl
          · exact Or.inl ⟨q, hq', hqid⟩
          · rw [hgroupE] at hqid
            rcases List.mem_singleton.mp hqid with rfl
            exact Or.inr (by rw [hIdsCons]; exact List.mem_cons_self _ _)
        · exact Or.inr (by rw [hIdsCons]; exact List.mem_cons_of_mem _ hmemr)

/-- C7 amended: for input records that each carry a truthy element_id, with
pairwise distinct ids and no pre-existing element_ids_group key, the groups
produced by dedupe partition the input ids: every input id lies in exactly
one group's id set and groups contain no other ids; empty input yields
empty output.  Without these hypotheses the partition fails, as the
counterexample with one id under two identities shows. -/
theorem dedupe_partitions_ids (x : List RawElem)
    (h1 : ∀ e ∈ x, e.element_ids_group = none)
    (h2 : ∀ e ∈ x, (rawTruthyId e).isSome)
    (h3 : (inputIds x).Nodup) :
    (∀ id ∈ inputIds x,
      (dedupe_elements x).countP (fun r => decide (id ∈ groupOf r)) = 1) ∧
    (∀ r ∈ dedupe_elements x, ∀ id ∈ groupOf r, id ∈ inputIds x) ∧
    dedupe_elements [] = ([] : List RawElem) := by
  have h2' : ∀ e ∈ x, ∃ id, e.element_id = some id ∧ id ≠ [] := by
    intro e he
    have h := h2 e he
    cases hei : e.element_id with
    | none => simp [rawTruthyId, hei] at h
    | some l =>
      by_cases hl : l = []
      · simp [rawTruthyId, hei, hl] at h
      · exact ⟨l, rfl, hl⟩
  have hbase := dedupe_partition_fold x []
    (by simp [keysOf]) (by simp) (by simp) h1 h2' h3
  rcases hbase with ⟨hc, hm⟩
  refine ⟨?_, ?_, rfl⟩
  · intro id hid
    unfold dedupe_elements
    rw [List.countP_map]
    have h0 : List.countP ((fun r => decide (id ∈ groupOf r)) ∘ Prod.snd)
        (x.foldl dedupeStep []) =
        List.countP (fun p => decide (id ∈ groupOf p.2))
        (x.foldl dedupeStep []) := rfl
    rw [h0, hc id]
    simp [hid]
  · intro r hr id hid
    rcases List.mem_map.mp hr with ⟨p, hp, hpe⟩
    have hid' : id ∈ groupOf p.2 := by
      rw [hpe]
      exact hid
    rcases hm p hp id hid' with ⟨q, hq, _⟩ | h
    · exact absurd hq (List.not_mem_nil q)
    · exact h

/-- Witness for C7 amended at a concrete two-record input with distinct
truthy ids and fresh groups: id a lies in exactly one group. -/
theorem dedupe_partitions_ids_witness :
    (dedupe_elements [⟨some ['a'], some ['w'], some ['n'], none, none⟩,
        ⟨some ['b'], some ['d'], some ['m'], none, none⟩]).countP
      (fun r => decide (['a'] ∈ groupOf r)) = 1 :=
  (dedupe_partitions_ids
      [⟨some ['a'], some ['w'], some ['n'], none, none⟩,
       ⟨some ['b'], some ['d'], some ['m'], none, none⟩]
      (by decide) (by decide) (by decide)).1 ['a'] (by decide)

end MetroAI
